import Mathlib

/-!
Shallow embedding of the RSA key-container codec and chunked block-transform
protocol of the `cryptohelpers` crate (src/rsa/*, src/consts.rs, src/bytes.rs,
src/error/rsa.rs).

Machine integers: the codec runs on a 64-bit target; `usize` values are
embedded as `Nat` and every arithmetic operation the Rust source performs
with `+` is embedded with an explicit `% 2^64` (release-profile wrapping
semantics). Byte buffers and I/O streams are `List Nat` whose elements stand
for `u8` values; where the source reinterprets raw memory as `usize` fields
(native-endian transmute on x86_64) the embedding reads 8 little-endian
bytes per field, truncating each element to a byte with `% 256`.
-/

namespace Cryptohelpers

/-- Modulus of `usize` on the 64-bit target the codec's wire format assumes. -/
def USIZE_MOD : Nat := 2 ^ 64

/-- Wrapping `usize` addition: Rust `+` under the release profile. -/
def usizeAdd (a b : Nat) : Nat := (a + b) % USIZE_MOD

/-- `src/consts.rs`: bytes the PKCS#1 v1.5 padding requires per RSA block. -/
def RSA_PADDING_NEEDS : Nat := 11

/-- `src/consts.rs`: size of an RSA signature in bytes. -/
def RSA_SIG_SIZE : Nat := 512

/-- `src/rsa/public_offsets.rs`: component byte lengths of a public key. -/
structure PublicOffsetGroup where
  n : Nat
  e : Nat
deriving DecidableEq

/-- `src/rsa/private_offsets.rs`: component byte lengths of a private key. -/
structure PrivateOffsetGroup where
  n : Nat
  e : Nat
  d : Nat
  p : Nat
  q : Nat
  dmp1 : Nat
  dmq1 : Nat
  iqmp : Nat
deriving DecidableEq

/-- `src/rsa/offsets.rs`: newtype holding cumulative start offsets. -/
structure Starts (T : Type) where
  group : T
deriving DecidableEq

/-- `PublicOffsetGroup::starts` (src/rsa/public_offsets.rs). -/
def PublicOffsetGroup.starts (g : PublicOffsetGroup) : Starts PublicOffsetGroup :=
  ⟨{ n := 0, e := g.n }⟩

/-- `PublicOffsetGroup::body_len` (src/rsa/public_offsets.rs): `self.n+self.e`. -/
def PublicOffsetGroup.body_len (g : PublicOffsetGroup) : Nat :=
  usizeAdd g.n g.e

/-- `PrivateOffsetGroup::starts` (src/rsa/private_offsets.rs): each start is the
left-associated wrapping sum of the preceding field lengths. -/
def PrivateOffsetGroup.starts (g : PrivateOffsetGroup) : Starts PrivateOffsetGroup :=
  ⟨{ n := 0
   , e := g.n
   , d := usizeAdd g.n g.e
   , p := usizeAdd (usizeAdd g.n g.e) g.d
   , q := usizeAdd (usizeAdd (usizeAdd g.n g.e) g.d) g.p
   , dmp1 := usizeAdd (usizeAdd (usizeAdd (usizeAdd g.n g.e) g.d) g.p) g.q
   , dmq1 := usizeAdd (usizeAdd (usizeAdd (usizeAdd (usizeAdd g.n g.e) g.d) g.p) g.q) g.dmp1
   , iqmp := usizeAdd (usizeAdd (usizeAdd (usizeAdd (usizeAdd (usizeAdd g.n g.e) g.d) g.p) g.q) g.dmp1) g.dmq1 }⟩

/-- `PrivateOffsetGroup::body_len` (src/rsa/private_offsets.rs). -/
def PrivateOffsetGroup.body_len (g : PrivateOffsetGroup) : Nat :=
  usizeAdd (usizeAdd (usizeAdd (usizeAdd (usizeAdd (usizeAdd (usizeAdd g.n g.e) g.d) g.p) g.q) g.dmp1) g.dmq1) g.iqmp

/-- Little-endian bytes of a `usize` field, `k` bytes long: the byte image the
codec obtains by reinterpreting the struct's memory (`bytes::refer`). -/
def usizeToBytes : Nat → Nat → List Nat
  | _, 0 => []
  | x, k + 1 => (x % 256) :: usizeToBytes (x / 256) k

/-- Little-endian read of a `usize` from bytes: the inverse reinterpretation
(`bytes::derefer` / `read_unaligned`). Elements are truncated to `u8` range. -/
def bytesToUsize : List Nat → Nat
  | [] => 0
  | b :: r => b % 256 + 256 * bytesToUsize r

/-- `size_of::<PublicOffsetGroup>()` on the 64-bit target. -/
def pubHeaderSize : Nat := 16

/-- `size_of::<PrivateOffsetGroup>()` on the 64-bit target. -/
def privHeaderSize : Nat := 64

/-- Raw memory image of a `PublicOffsetGroup` (`bytes::refer(&self.offset)`). -/
def encodePublicOffsets (g : PublicOffsetGroup) : List Nat :=
  usizeToBytes g.n 8 ++ usizeToBytes g.e 8

/-- Reinterpret 16 header bytes as a `PublicOffsetGroup`, field by field in
declaration order, as the transmute in `RsaPublicKey::from_bytes` does. -/
def decodePublicOffsets (b : List Nat) : PublicOffsetGroup :=
  let n := bytesToUsize (b.take 8)
  let b := b.drop 8
  let e := bytesToUsize (b.take 8)
  { n := n, e := e }

/-- Raw memory image of a `PrivateOffsetGroup`. -/
def encodePrivateOffsets (g : PrivateOffsetGroup) : List Nat :=
  usizeToBytes g.n 8 ++ usizeToBytes g.e 8 ++ usizeToBytes g.d 8 ++ usizeToBytes g.p 8 ++
  usizeToBytes g.q 8 ++ usizeToBytes g.dmp1 8 ++ usizeToBytes g.dmq1 8 ++ usizeToBytes g.iqmp 8

/-- Reinterpret 64 header bytes as a `PrivateOffsetGroup`. -/
def decodePrivateOffsets (b : List Nat) : PrivateOffsetGroup :=
  let n := bytesToUsize (b.take 8)
  let b := b.drop 8
  let e := bytesToUsize (b.take 8)
  let b := b.drop 8
  let d := bytesToUsize (b.take 8)
  let b := b.drop 8
  let p := bytesToUsize (b.take 8)
  let b := b.drop 8
  let q := bytesToUsize (b.take 8)
  let b := b.drop 8
  let dmp1 := bytesToUsize (b.take 8)
  let b := b.drop 8
  let dmq1 := bytesToUsize (b.take 8)
  let b := b.drop 8
  let iqmp := bytesToUsize (b.take 8)
  { n := n, e := e, d := d, p := p, q := q, dmp1 := dmp1, dmq1 := dmq1, iqmp := iqmp }

lemma usizeToBytes_length (x k : Nat) : (usizeToBytes x k).length = k := by
  induction k generalizing x with
  | zero => rfl
  | succ k ih => simp [usizeToBytes, ih]

lemma bytesToUsize_usizeToBytes (x k : Nat) :
    bytesToUsize (usizeToBytes x k) = x % 256 ^ k := by
  induction k generalizing x with
  | zero => simp [usizeToBytes, bytesToUsize, Nat.mod_one]
  | succ k ih =>
    have h256 : (256 : Nat) ^ (k + 1) = 256 * 256 ^ k := by ring
    rw [usizeToBytes, bytesToUsize, ih, h256, Nat.mod_mul,
      Nat.mod_mod_of_dvd x (dvd_refl 256)]

lemma bytesToUsize_usizeToBytes8 (x : Nat) :
    bytesToUsize (usizeToBytes x 8) = x % USIZE_MOD := by
  rw [bytesToUsize_usizeToBytes]
  norm_num [USIZE_MOD]

lemma take8_block (x : Nat) (r : List Nat) :
    (usizeToBytes x 8 ++ r).take 8 = usizeToBytes x 8 :=
  List.take_left' (usizeToBytes_length x 8)

lemma drop8_block (x : Nat) (r : List Nat) :
    (usizeToBytes x 8 ++ r).drop 8 = r :=
  List.drop_left' (usizeToBytes_length x 8)

lemma take8_last (x : Nat) : (usizeToBytes x 8).take 8 = usizeToBytes x 8 := by
  have h := take8_block x []
  simpa using h

lemma encodePublicOffsets_length (g : PublicOffsetGroup) :
    (encodePublicOffsets g).length = pubHeaderSize := by
  simp [encodePublicOffsets, usizeToBytes_length, pubHeaderSize]

lemma encodePrivateOffsets_length (g : PrivateOffsetGroup) :
    (encodePrivateOffsets g).length = privHeaderSize := by
  simp [encodePrivateOffsets, usizeToBytes_length, privHeaderSize]

lemma decode_encode_public (g : PublicOffsetGroup) :
    decodePublicOffsets (encodePublicOffsets g) =
      { n := g.n % USIZE_MOD, e := g.e % USIZE_MOD } := by
  simp [decodePublicOffsets, encodePublicOffsets, take8_block, drop8_block,
    take8_last, bytesToUsize_usizeToBytes8]

lemma decode_encode_private (g : PrivateOffsetGroup) :
    decodePrivateOffsets (encodePrivateOffsets g) =
      { n := g.n % USIZE_MOD, e := g.e % USIZE_MOD, d := g.d % USIZE_MOD,
        p := g.p % USIZE_MOD, q := g.q % USIZE_MOD, dmp1 := g.dmp1 % USIZE_MOD,
        dmq1 := g.dmq1 % USIZE_MOD, iqmp := g.iqmp % USIZE_MOD } := by
  simp [decodePrivateOffsets, encodePrivateOffsets, take8_block, drop8_block,
    take8_last, bytesToUsize_usizeToBytes8]

/-- `openssl::error::ErrorStack`: the external capability's opaque error,
carried only as a value (its content never inspected by this crate). -/
structure ErrorStack where
  code : Nat
deriving DecidableEq

/-- `std::io::Error` as the codec observes it: `read_exact` on a short stream
fails with `ErrorKind::UnexpectedEof`. -/
inductive IoError
  | UnexpectedEof
deriving DecidableEq

/-- `BinaryErrorKind` (src/error/rsa.rs). -/
inductive BinaryErrorKind
  | Unknown
  | Length (expected : Option Nat) (got : Option Nat)
  | Corruption
deriving DecidableEq

namespace Rsa

/-- `Error` (src/error/rsa.rs): the RSA domain error. The source's `IO`
variant is spelled `Io` here. -/
inductive Error
  | Encrypt
  | Decrypt
  | Integer
  | Key
  | Password
  | PEM
  | Binary (k : BinaryErrorKind)
  | Utf8
  | OpenSSLInternal (s : ErrorStack)
  | Io (e : IoError)
  | Unknown
deriving DecidableEq

/-- What `Error::source()` can return: the chained underlying error. -/
inductive Underlying
  | ssl (s : ErrorStack)
  | io (e : IoError)
deriving DecidableEq

/-- `Error::source` (src/error/rsa.rs lines 37-47): only the `IO` and
`OpenSSLInternal` variants chain an underlying error; every other variant
falls to the `_ => return None` arm. -/
def Error.source : Error → Option Underlying
  | .Io e => some (.io e)
  | .OpenSSLInternal s => some (.ssl s)
  | _ => none

end Rsa

/-- `RsaPublicKey` (src/rsa/public.rs): data buffer plus offsets. -/
structure RsaPublicKey where
  data : List Nat
  offset_starts : Starts PublicOffsetGroup
  offset : PublicOffsetGroup
deriving DecidableEq

/-- `RsaPrivateKey` (src/rsa/private.rs). -/
structure RsaPrivateKey where
  data : List Nat
  offset_starts : Starts PrivateOffsetGroup
  offset : PrivateOffsetGroup
deriving DecidableEq

/-- `RsaPublicKey::new` (src/rsa/public.rs): concatenate the component byte
strings and record their lengths. -/
def RsaPublicKey.new (n e : List Nat) : RsaPublicKey :=
  let offset : PublicOffsetGroup := { n := n.length, e := e.length }
  { data := n ++ e, offset_starts := offset.starts, offset := offset }

/-- `RsaPrivateKey::new` (src/rsa/private.rs). -/
def RsaPrivateKey.new (n e d p q dmp1 dmq1 iqmp : List Nat) : RsaPrivateKey :=
  let offset : PrivateOffsetGroup :=
    { n := n.length, e := e.length, d := d.length, p := p.length,
      q := q.length, dmp1 := dmp1.length, dmq1 := dmq1.length, iqmp := iqmp.length }
  { data := n ++ e ++ d ++ p ++ q ++ dmp1 ++ dmq1 ++ iqmp
  , offset_starts := offset.starts, offset := offset }

/-- `RsaPublicKey::from_bytes` (src/rsa/public.rs lines 125-149). Note the
accepted body is `Vec::from(&bytes[..])`: ALL bytes after the header, not
only the first `body_len()` of them. -/
def RsaPublicKey.from_bytes (bytes : List Nat) : Except Rsa.Error RsaPublicKey :=
  if bytes.length < pubHeaderSize then
    .error (.Binary (.Length (some pubHeaderSize) (some bytes.length)))
  else
    let offset := decodePublicOffsets (bytes.take pubHeaderSize)
    let rest := bytes.drop pubHeaderSize
    let sz := offset.body_len
    if rest.length < sz then
      .error (.Binary (.Length (some sz) (some rest.length)))
    else
      .ok { data := rest, offset_starts := offset.starts, offset := offset }

/-- `RsaPrivateKey::from_bytes` (src/rsa/private.rs lines 176-198): same
shape, including `data: Vec::from(&bytes[..])` taking all remaining bytes. -/
def RsaPrivateKey.from_bytes (bytes : List Nat) : Except Rsa.Error RsaPrivateKey :=
  if bytes.length < privHeaderSize then
    .error (.Binary (.Length (some privHeaderSize) (some bytes.length)))
  else
    let offset := decodePrivateOffsets (bytes.take privHeaderSize)
    let rest := bytes.drop privHeaderSize
    let sz := offset.body_len
    if rest.length < sz then
      .error (.Binary (.Length (some sz) (some rest.length)))
    else
      .ok { data := rest, offset_starts := offset.starts, offset := offset }

/-- `RsaPublicKey::to_bytes` via `write_to_sync` (src/rsa/public.rs):
header bytes verbatim, then the data buffer verbatim. -/
def RsaPublicKey.to_bytes (k : RsaPublicKey) : List Nat :=
  encodePublicOffsets k.offset ++ k.data

/-- `RsaPrivateKey::to_bytes` via `write_to_sync` (src/rsa/private.rs). -/
def RsaPrivateKey.to_bytes (k : RsaPrivateKey) : List Nat :=
  encodePrivateOffsets k.offset ++ k.data

/-- `RsaPublicKey::read_from_sync` (src/rsa/public.rs lines 222-249): one
`read_exact` of the header (`UnexpectedEof` when the stream is shorter),
then one `read_exact` of exactly `body_len()` data bytes (`UnexpectedEof`
when fewer remain); each `read_exact`'s two outcomes are inlined as an
`if` on the remaining stream length. -/
def RsaPublicKey.read_from_sync (stream : List Nat) : Except IoError RsaPublicKey :=
  if stream.length < pubHeaderSize then .error .UnexpectedEof
  else
    let offset := decodePublicOffsets (stream.take pubHeaderSize)
    let rest := stream.drop pubHeaderSize
    if rest.length < offset.body_len then .error .UnexpectedEof
    else .ok { data := rest.take offset.body_len
             , offset_starts := offset.starts, offset := offset }

/-- `RsaPrivateKey::read_from_sync` (src/rsa/private.rs lines 264-284): same
two-step `read_exact` framing as the public variant. -/
def RsaPrivateKey.read_from_sync (stream : List Nat) : Except IoError RsaPrivateKey :=
  if stream.length < privHeaderSize then .error .UnexpectedEof
  else
    let offset := decodePrivateOffsets (stream.take privHeaderSize)
    let rest := stream.drop privHeaderSize
    if rest.length < offset.body_len then .error .UnexpectedEof
    else .ok { data := rest.take offset.body_len
             , offset_starts := offset.starts, offset := offset }

/-- Component accessor (the `component!` macro of src/rsa/mod.rs):
`&data[starts.f() .. starts.f() + offset.f()]`. -/
def RsaPublicKey.n (k : RsaPublicKey) : List Nat :=
  (k.data.drop k.offset_starts.group.n).take k.offset.n

/-- Component accessor for `e` on a public key. -/
def RsaPublicKey.e (k : RsaPublicKey) : List Nat :=
  (k.data.drop k.offset_starts.group.e).take k.offset.e

/-- Component accessor for `n` on a private key. -/
def RsaPrivateKey.n (k : RsaPrivateKey) : List Nat :=
  (k.data.drop k.offset_starts.group.n).take k.offset.n

/-- Component accessor for `e` on a private key. -/
def RsaPrivateKey.e (k : RsaPrivateKey) : List Nat :=
  (k.data.drop k.offset_starts.group.e).take k.offset.e

/-- Component accessor for `d`. -/
def RsaPrivateKey.d (k : RsaPrivateKey) : List Nat :=
  (k.data.drop k.offset_starts.group.d).take k.offset.d

/-- Component accessor for `p`. -/
def RsaPrivateKey.p (k : RsaPrivateKey) : List Nat :=
  (k.data.drop k.offset_starts.group.p).take k.offset.p

/-- Component accessor for `q`. -/
def RsaPrivateKey.q (k : RsaPrivateKey) : List Nat :=
  (k.data.drop k.offset_starts.group.q).take k.offset.q

/-- Component accessor for `dmp1`. -/
def RsaPrivateKey.dmp1 (k : RsaPrivateKey) : List Nat :=
  (k.data.drop k.offset_starts.group.dmp1).take k.offset.dmp1

/-- Component accessor for `dmq1`. -/
def RsaPrivateKey.dmq1 (k : RsaPrivateKey) : List Nat :=
  (k.data.drop k.offset_starts.group.dmq1).take k.offset.dmq1

/-- Component accessor for `iqmp`. -/
def RsaPrivateKey.iqmp (k : RsaPrivateKey) : List Nat :=
  (k.data.drop k.offset_starts.group.iqmp).take k.offset.iqmp

/-!
The external asymmetric-cipher capability (openssl `public_encrypt` /
`private_decrypt` with `Padding::PKCS1`), modelled as a reversible
PKCS#1 v1.5-style block transform: a plaintext chunk of at most
`key_size - 11` bytes becomes exactly one `key_size`-byte block, and only a
whole such block decrypts back. The modular exponentiation itself is out of
scope (spec section 1); what the codec relies on is the block size
arithmetic and invertibility, which this model preserves.
-/

/-- One block encryption by the external capability. Fails (as openssl does)
when the data does not fit `key_size - RSA_PADDING_NEEDS`. -/
def encryptBlock (key_size : Nat) (chunk : List Nat) : Except ErrorStack (List Nat) :=
  if chunk.length + RSA_PADDING_NEEDS ≤ key_size then
    .ok ([0, 2] ++ List.replicate (key_size - chunk.length - 3) 1 ++ [0] ++ chunk)
  else .error ⟨1⟩

/-- Padding check half of block decryption: a valid PKCS#1 v1.5-style block
is `[0, 2]`, at least 8 nonzero padding bytes, a zero, then the message. -/
def decryptPadded : List Nat → Except ErrorStack (List Nat)
  | 0 :: 2 :: rest =>
    match rest.dropWhile (· ≠ 0) with
    | 0 :: msg =>
      if 8 ≤ (rest.takeWhile (· ≠ 0)).length then .ok msg else .error ⟨2⟩
    | _ => .error ⟨2⟩
  | _ => .error ⟨3⟩

/-- One block decryption by the external capability: requires exactly one
`key_size`-byte block with valid padding structure. -/
def decryptBlock (key_size : Nat) (block : List Nat) : Except ErrorStack (List Nat) :=
  if block.length = key_size then decryptPadded block else .error ⟨4⟩

/-- The read/encrypt/write loop of `encrypt_sync` (src/rsa/crypt.rs lines
93-115): read up to `max_size` bytes into the read buffer (a list-backed
reader fills as much of the buffer as it has bytes), encrypt the chunk,
write the block; a zero-length read ends the loop. Returns the blocks
written in order and `done`, the total input bytes consumed. -/
def encryptLoop (key_size max_size : Nat) (stream : List Nat) :
    Except Rsa.Error (List (List Nat) × Nat) :=
  if h : max_size = 0 ∨ stream = [] then .ok ([], 0)
  else
    let chunk := stream.take max_size
    match encryptBlock key_size chunk with
    | .error _ => .error .Encrypt
    | .ok block =>
      match encryptLoop key_size max_size (stream.drop max_size) with
      | .error e => .error e
      | .ok (blocks, done) => .ok (block :: blocks, chunk.length + done)
termination_by stream.length
decreasing_by
  simp only [List.length_drop]
  push_neg at h
  have := List.length_pos.mpr h.2
  omega

/-- `encrypt_sync` (src/rsa/crypt.rs lines 93-115): the read buffer is
`key_size - RSA_PADDING_NEEDS` bytes. -/
def encrypt_sync (key_size : Nat) (stream : List Nat) :
    Except Rsa.Error (List (List Nat) × Nat) :=
  encryptLoop key_size (key_size - RSA_PADDING_NEEDS) stream

/-- The read/decrypt/write loop of `decrypt_sync` (src/rsa/crypt.rs lines
202-226). The source allocates `read_buffer = vec![0u8; max_size]` with
`max_size = key_size - PADDING_NEEDS` for DECRYPTION as well, so a read can
never return a whole `key_size` block. Returns the concatenated plaintext
written and `done`, the input bytes consumed. -/
def decryptLoop (key_size max_size : Nat) (stream : List Nat) :
    Except Rsa.Error (List Nat × Nat) :=
  if h : max_size = 0 ∨ stream = [] then .ok ([], 0)
  else
    let chunk := stream.take max_size
    match decryptBlock key_size chunk with
    | .error _ => .error .Decrypt
    | .ok msg =>
      match decryptLoop key_size max_size (stream.drop max_size) with
      | .error e => .error e
      | .ok (rest, done) => .ok (msg ++ rest, chunk.length + done)
termination_by stream.length
decreasing_by
  simp only [List.length_drop]
  push_neg at h
  have := List.length_pos.mpr h.2
  omega

/-- `decrypt_sync` (src/rsa/crypt.rs lines 202-226). -/
def decrypt_sync (key_size : Nat) (stream : List Nat) :
    Except Rsa.Error (List Nat × Nat) :=
  decryptLoop key_size (key_size - RSA_PADDING_NEEDS) stream

/-- `encrypt_slice_sync` (src/rsa/crypt.rs lines 118-132): one block
operation; on success append the block to the sink and return the written
count, on failure return `Error::Encrypt` leaving the sink untouched. -/
def encrypt_slice_sync (key_size : Nat) (data output : List Nat) :
    List Nat × Except Rsa.Error Nat :=
  match encryptBlock key_size data with
  | .error _ => (output, .error .Encrypt)
  | .ok block => (output ++ block, .ok block.length)

/-- `encrypt_slice_to_vec` (src/rsa/crypt.rs lines 27-35): run
`encrypt_slice_sync` into a fresh vector. -/
def encrypt_slice_to_vec (key_size : Nat) (data : List Nat) :
    Except Rsa.Error (List Nat) :=
  match encrypt_slice_sync key_size data [] with
  | (out, .ok _) => .ok out
  | (_, .error e) => .error e

/-- `bytes::copy_slice` (src/bytes.rs lines 12-19): copies
`min(dst.len, src.len)` bytes from the front of `src` over the front of
`dst` and returns the count; `none` models the panic of indexing `dst[0]` /
`src[0]` on an empty slice. -/
def copy_slice (dst src : List Nat) : Option (List Nat × Nat) :=
  if dst.isEmpty ∨ src.isEmpty then none
  else
    let sz := min dst.length src.length
    some (src.take sz ++ dst.drop sz, sz)

/-- `Signature` (src/rsa/sign.rs): a fixed 512-byte array. -/
structure Signature where
  bytes : List Nat
deriving DecidableEq

/-- `Signature::from_slice` (src/rsa/sign.rs lines 158-167): copy into a
zeroed `RSA_SIG_SIZE` buffer and `assert_eq!` that a full signature's worth
was copied; `none` models the panic. -/
def Signature.from_slice (src : List Nat) : Option Signature :=
  match copy_slice (List.replicate RSA_SIG_SIZE 0) src with
  | none => none
  | some (out, sz) => if sz = RSA_SIG_SIZE then some ⟨out⟩ else none

/-! ## Theorems -/

/-- C4 counterexample: the claim says `body_len()`/`starts()` use checked or
widening arithmetic so that overflow of the component-length sum is detected
or prevented rather than wrapping to a small value. The source computes the
sums with plain `+` (release-profile wrapping): a header declaring
`n = e = 2^63` yields `body_len() = 0`, a silently wrapped small value. -/
theorem body_len_wraps_at_usize_overflow :
    PrivateOffsetGroup.body_len ⟨2 ^ 63, 2 ^ 63, 0, 0, 0, 0, 0, 0⟩ = 0 ∧
    PublicOffsetGroup.body_len ⟨2 ^ 63, 2 ^ 63⟩ = 0 := by
  constructor <;>
    norm_num [PrivateOffsetGroup.body_len, PublicOffsetGroup.body_len, usizeAdd, USIZE_MOD]

/-- C4 amended: `body_len` and the cumulative sums in `starts` are computed
with plain unchecked addition, so they reduce the true sum modulo `2^64`
(release profile): overflow wraps silently rather than being detected. -/
theorem body_len_wrapping_semantics (pg : PublicOffsetGroup) (g : PrivateOffsetGroup) :
    pg.body_len = (pg.n + pg.e) % USIZE_MOD ∧
    g.body_len =
      (g.n + g.e + g.d + g.p + g.q + g.dmp1 + g.dmq1 + g.iqmp) % USIZE_MOD ∧
    g.starts.group.iqmp =
      (g.n + g.e + g.d + g.p + g.q + g.dmp1 + g.dmq1) % USIZE_MOD := by
  refine ⟨rfl, ?_, ?_⟩ <;>
    simp [PrivateOffsetGroup.body_len, PrivateOffsetGroup.starts, usizeAdd,
      Nat.mod_add_mod]

/-- C7: `starts()` computes cumulative offsets in declaration order: the first
start is 0, each next start is the previous start plus the previous field's
length (in the machine's wrapping `usize` arithmetic), and the last start
plus the last length equals `body_len()`. -/
theorem starts_cumulative (pg : PublicOffsetGroup) (g : PrivateOffsetGroup)
    (hp : pg.n < USIZE_MOD) (hn : g.n < USIZE_MOD) :
    pg.starts.group.n = 0 ∧
    pg.starts.group.e = usizeAdd pg.starts.group.n pg.n ∧
    usizeAdd pg.starts.group.e pg.e = pg.body_len ∧
    g.starts.group.n = 0 ∧
    g.starts.group.e = usizeAdd g.starts.group.n g.n ∧
    g.starts.group.d = usizeAdd g.starts.group.e g.e ∧
    g.starts.group.p = usizeAdd g.starts.group.d g.d ∧
    g.starts.group.q = usizeAdd g.starts.group.p g.p ∧
    g.starts.group.dmp1 = usizeAdd g.starts.group.q g.q ∧
    g.starts.group.dmq1 = usizeAdd g.starts.group.dmp1 g.dmp1 ∧
    g.starts.group.iqmp = usizeAdd g.starts.group.dmq1 g.dmq1 ∧
    usizeAdd g.starts.group.iqmp g.iqmp = g.body_len := by
  refine ⟨rfl, ?_, rfl, rfl, ?_, rfl, rfl, rfl, rfl, rfl, rfl, rfl⟩
  · simp only [PublicOffsetGroup.starts, usizeAdd, Nat.zero_add]
    exact (Nat.mod_eq_of_lt hp).symm
  · simp only [PrivateOffsetGroup.starts, usizeAdd, Nat.zero_add]
    exact (Nat.mod_eq_of_lt hn).symm

/-- C7 witness: the spec's section 8 scenario (`n`=256, `e`=3, `d`=256,
`p,q,dmp1,dmq1,iqmp`=128): the last start plus the last length is
`body_len` = 1155. -/
theorem starts_cumulative_witness :
    usizeAdd ((PrivateOffsetGroup.starts ⟨256, 3, 256, 128, 128, 128, 128, 128⟩).group.iqmp)
        ((⟨256, 3, 256, 128, 128, 128, 128, 128⟩ : PrivateOffsetGroup).iqmp) =
      PrivateOffsetGroup.body_len ⟨256, 3, 256, 128, 128, 128, 128, 128⟩ :=
  (starts_cumulative ⟨256, 3⟩ ⟨256, 3, 256, 128, 128, 128, 128, 128⟩
    (by norm_num [USIZE_MOD]) (by norm_num [USIZE_MOD])).2.2.2.2.2.2.2.2.2.2.2

/-- C8 counterexample: `encrypt_slice_sync` with an oversized input fails in
the external capability (an underlying `ErrorStack` exists) and maps it to
`Error::Encrypt`, whose `source()` is `None` — not the underlying error. -/
theorem capability_failure_source_is_none :
    (encrypt_slice_sync 16 (List.replicate 6 0) []).2 = .error .Encrypt ∧
    Rsa.Error.source .Encrypt = none :=
  ⟨rfl, rfl⟩

/-- C8 amended: `Error::source()` chains the underlying error only for the
`IO` and `OpenSSLInternal` variants; capability failures mapped to
`Encrypt`, `Decrypt` or `Key` discard the underlying error, so `source()`
returns `None` for them. -/
theorem error_source_amended :
    (∀ s, (Rsa.Error.OpenSSLInternal s).source = some (.ssl s)) ∧
    (∀ e, (Rsa.Error.Io e).source = some (.io e)) ∧
    Rsa.Error.source .Encrypt = none ∧
    Rsa.Error.source .Decrypt = none ∧
    Rsa.Error.source .Key = none :=
  ⟨fun _ => rfl, fun _ => rfl, rfl, rfl, rfl⟩

/-- C9: `Signature::from_slice` panics (modelled as `none`) for every input
shorter than `RSA_SIG_SIZE` (512) bytes, and for every input of at least 512
bytes returns a `Signature` holding exactly the first 512 bytes. -/
lemma copy_slice_of_ne_nil (dst src : List Nat) (h1 : dst ≠ []) (h2 : src ≠ []) :
    copy_slice dst src =
      some (src.take (min dst.length src.length) ++ dst.drop (min dst.length src.length),
            min dst.length src.length) := by
  rw [copy_slice, if_neg]
  simp only [List.isEmpty_eq_true, not_or]
  exact ⟨h1, h2⟩

lemma sig_buffer_ne_nil : List.replicate RSA_SIG_SIZE 0 ≠ ([] : List Nat) := by
  intro hx
  have hlen := congrArg List.length hx
  simp only [List.length_replicate, List.length_nil, RSA_SIG_SIZE] at hlen
  omega

theorem from_slice_spec (src : List Nat) :
    (src.length < RSA_SIG_SIZE → Signature.from_slice src = none) ∧
    (RSA_SIG_SIZE ≤ src.length →
      Signature.from_slice src = some ⟨src.take RSA_SIG_SIZE⟩) := by
  constructor
  · intro h
    rcases eq_or_ne src [] with rfl | hne
    · rw [Signature.from_slice, copy_slice, if_pos (by simp)]
    · rw [Signature.from_slice, copy_slice_of_ne_nil _ _ sig_buffer_ne_nil hne]
      have hsz : min (List.replicate RSA_SIG_SIZE 0).length src.length = src.length := by
        simp only [List.length_replicate]
        omega
      rw [hsz]
      have hne512 : ¬ (src.length = RSA_SIG_SIZE) := by omega
      simp [hne512]
  · intro h
    have hne : src ≠ [] := by
      intro hnil
      rw [hnil] at h
      simp only [List.length_nil, Nat.le_zero, RSA_SIG_SIZE] at h
      omega
    rw [Signature.from_slice, copy_slice_of_ne_nil _ _ sig_buffer_ne_nil hne]
    have hsz : min (List.replicate RSA_SIG_SIZE 0).length src.length = RSA_SIG_SIZE := by
      simp only [List.length_replicate]
      omega
    rw [hsz, List.drop_replicate, Nat.sub_self, List.replicate_zero, List.append_nil]
    exact if_pos rfl

/-- C9 witness: a 5-byte slice panics; a 600-byte slice yields the first 512
bytes. -/
theorem from_slice_spec_witness :
    Signature.from_slice (List.replicate 5 1) = none ∧
    Signature.from_slice (List.replicate 600 2) = some ⟨List.replicate 512 2⟩ := by
  constructor
  · exact (from_slice_spec (List.replicate 5 1)).1 (by norm_num [RSA_SIG_SIZE])
  · have h := (from_slice_spec (List.replicate 600 2)).2 (by norm_num [RSA_SIG_SIZE])
    rw [List.take_replicate] at h
    norm_num [RSA_SIG_SIZE] at h
    exact h

/-- C10: the slice encrypt entry points perform exactly one block operation:
an input of at most `key_size - RSA_PADDING_NEEDS` bytes succeeds, appending
exactly one `key_size`-byte block to the sink; a longer input returns
`Error::Encrypt` with the sink untouched (no output written). -/
theorem encrypt_slice_spec (key_size : Nat) (data sink : List Nat) :
    (data.length + RSA_PADDING_NEEDS ≤ key_size →
      ∃ block, encrypt_slice_sync key_size data sink = (sink ++ block, .ok block.length) ∧
        block.length = key_size ∧
        encrypt_slice_to_vec key_size data = .ok block) ∧
    (key_size < data.length + RSA_PADDING_NEEDS →
      encrypt_slice_sync key_size data sink = (sink, .error .Encrypt) ∧
      encrypt_slice_to_vec key_size data = .error .Encrypt) := by
  constructor
  · intro h
    have hb : encryptBlock key_size data =
        .ok ([0, 2] ++ List.replicate (key_size - data.length - 3) 1 ++ [0] ++ data) := by
      simp [encryptBlock, if_pos h]
    refine ⟨[0, 2] ++ List.replicate (key_size - data.length - 3) 1 ++ [0] ++ data,
      ?_, ?_, ?_⟩
    · simp [encrypt_slice_sync, hb]
    · simp only [List.length_append, List.length_replicate, List.length_cons,
        List.length_nil]
      have hpad : RSA_PADDING_NEEDS = 11 := rfl
      rw [hpad] at h
      omega
    · simp [encrypt_slice_to_vec, encrypt_slice_sync, hb]
  · intro h
    have hb : encryptBlock key_size data = .error ⟨1⟩ := by
      have : ¬ (data.length + RSA_PADDING_NEEDS ≤ key_size) := by omega
      simp [encryptBlock, if_neg this]
    exact ⟨by simp [encrypt_slice_sync, hb], by simp [encrypt_slice_to_vec, encrypt_slice_sync, hb]⟩

/-- C10 witness: for `key_size` 16, a 3-byte input yields one 16-byte block
appended to the sink; a 6-byte input fails with `Error::Encrypt` and leaves
the sink untouched. -/
theorem encrypt_slice_spec_witness :
    (∃ block, encrypt_slice_sync 16 [1, 2, 3] [9] = ([9] ++ block, .ok block.length) ∧
      block.length = 16 ∧ encrypt_slice_to_vec 16 [1, 2, 3] = .ok block) ∧
    encrypt_slice_sync 16 (List.replicate 6 5) [9] = ([9], .error .Encrypt) ∧
    encrypt_slice_to_vec 16 (List.replicate 6 5) = .error .Encrypt := by
  refine ⟨(encrypt_slice_spec 16 [1, 2, 3] [9]).1 (by norm_num [RSA_PADDING_NEEDS]), ?_, ?_⟩
  · exact ((encrypt_slice_spec 16 (List.replicate 6 5) [9]).2 (by norm_num [RSA_PADDING_NEEDS])).1
  · exact ((encrypt_slice_spec 16 (List.replicate 6 5) [9]).2 (by norm_num [RSA_PADDING_NEEDS])).2

/-- C5: decoding an input shorter than `sizeof(header) + body_len()` (with
`body_len` computed from the header bytes actually present) fails with a
length error (`from_bytes`) or an end-of-stream error (`read_from_sync`);
no container is returned. -/
theorem short_input_rejected (input stream : List Nat) :
    (input.length < pubHeaderSize + (decodePublicOffsets (input.take pubHeaderSize)).body_len →
      ∃ exp got, RsaPublicKey.from_bytes input =
        .error (.Binary (.Length (some exp) (some got)))) ∧
    (stream.length < privHeaderSize + (decodePrivateOffsets (stream.take privHeaderSize)).body_len →
      RsaPrivateKey.read_from_sync stream = .error .UnexpectedEof) := by
  constructor
  · intro h
    by_cases h16 : input.length < pubHeaderSize
    · exact ⟨pubHeaderSize, input.length, by rw [RsaPublicKey.from_bytes, if_pos h16]⟩
    · refine ⟨(decodePublicOffsets (input.take pubHeaderSize)).body_len,
        (input.drop pubHeaderSize).length, ?_⟩
      rw [RsaPublicKey.from_bytes, if_neg h16]
      have hrest : (input.drop pubHeaderSize).length <
          (decodePublicOffsets (input.take pubHeaderSize)).body_len := by
        rw [List.length_drop]
        omega
      simp only [if_pos hrest]
  · intro h
    by_cases h64 : stream.length < privHeaderSize
    · rw [RsaPrivateKey.read_from_sync, if_pos h64]
    · rw [RsaPrivateKey.read_from_sync, if_neg h64]
      have hrest : (stream.drop privHeaderSize).length <
          (decodePrivateOffsets (stream.take privHeaderSize)).body_len := by
        rw [List.length_drop]
        omega
      simp only [if_pos hrest]

/-- C5 witness: a 3-byte input (shorter than the public header) is rejected
with a length error; a 30-byte stream (shorter than the private header) is
rejected with `UnexpectedEof`. -/
theorem short_input_rejected_witness :
    (∃ exp got, RsaPublicKey.from_bytes (List.replicate 3 0) =
      .error (.Binary (.Length (some exp) (some got)))) ∧
    RsaPrivateKey.read_from_sync (List.replicate 30 0) = .error .UnexpectedEof :=
  ⟨(short_input_rejected (List.replicate 3 0) (List.replicate 30 0)).1 (by decide),
   (short_input_rejected (List.replicate 3 0) (List.replicate 30 0)).2 (by decide)⟩

/-- C1 counterexample: `from_bytes` accepts an input with a byte beyond the
declared body (header declares `n = e = 0`, so `body_len() = 0`, but one
trailing byte follows) and constructs a container whose `data` has length 1
while `offset.body_len()` is 0 — the claimed invariant does not hold for
every accepted input. -/
theorem from_bytes_accepts_oversized_input :
    RsaPublicKey.from_bytes (List.replicate pubHeaderSize 0 ++ [7]) =
      .ok { data := [7], offset_starts := ⟨⟨0, 0⟩⟩, offset := ⟨0, 0⟩ } ∧
    ¬ (([7] : List Nat).length = PublicOffsetGroup.body_len ⟨0, 0⟩) := by
  constructor
  · rfl
  · decide

/-- C1 amended: `new` (for component-length sums below `2^64`) and
`read_from_sync` establish `data.len() = body_len()` exactly; `from_bytes`
only guarantees `data.len() = input.len() - sizeof(header) ≥ body_len()`,
with equality exactly when the input carries no trailing bytes. -/
theorem container_data_len_amended (input stream : List Nat)
    (n e d p q dmp1 dmq1 iqmp : List Nat) :
    (∀ k, RsaPublicKey.from_bytes input = .ok k →
      k.data.length = input.length - pubHeaderSize ∧
      k.offset.body_len ≤ k.data.length ∧
      (input.length = pubHeaderSize + k.offset.body_len →
        k.data.length = k.offset.body_len)) ∧
    (∀ k, RsaPrivateKey.from_bytes input = .ok k →
      k.data.length = input.length - privHeaderSize ∧
      k.offset.body_len ≤ k.data.length) ∧
    (∀ k, RsaPublicKey.read_from_sync stream = .ok k →
      k.data.length = k.offset.body_len) ∧
    (∀ k, RsaPrivateKey.read_from_sync stream = .ok k →
      k.data.length = k.offset.body_len) ∧
    (n.length + e.length < USIZE_MOD →
      (RsaPublicKey.new n e).data.length = (RsaPublicKey.new n e).offset.body_len) ∧
    (n.length + e.length + d.length + p.length + q.length + dmp1.length +
        dmq1.length + iqmp.length < USIZE_MOD →
      (RsaPrivateKey.new n e d p q dmp1 dmq1 iqmp).data.length =
        (RsaPrivateKey.new n e d p q dmp1 dmq1 iqmp).offset.body_len) := by
  refine ⟨?_, ?_, ?_, ?_, ?_, ?_⟩
  · intro k hk
    simp only [RsaPublicKey.from_bytes] at hk
    split at hk
    · exact absurd hk (by simp)
    · split at hk
      · exact absurd hk (by simp)
      · rename_i h16 hrest
        injection hk with hk2
        subst hk2
        dsimp only
        simp only [List.length_drop] at hrest
        refine ⟨by simp, by simp only [List.length_drop]; omega, ?_⟩
        intro hlen
        simp only [List.length_drop]
        omega
  · intro k hk
    simp only [RsaPrivateKey.from_bytes] at hk
    split at hk
    · exact absurd hk (by simp)
    · split at hk
      · exact absurd hk (by simp)
      · rename_i h64 hrest
        injection hk with hk2
        subst hk2
        dsimp only
        simp only [List.length_drop] at hrest
        exact ⟨by simp, by simp only [List.length_drop]; omega⟩
  · intro k hk
    simp only [RsaPublicKey.read_from_sync] at hk
    split at hk
    · exact absurd hk (by simp)
    · split at hk
      · exact absurd hk (by simp)
      · rename_i h16 hrest
        injection hk with hk2
        subst hk2
        dsimp only
        simp only [List.length_drop] at hrest
        simp only [List.length_take, List.length_drop]
        omega
  · intro k hk
    simp only [RsaPrivateKey.read_from_sync] at hk
    split at hk
    · exact absurd hk (by simp)
    · split at hk
      · exact absurd hk (by simp)
      · rename_i h64 hrest
        injection hk with hk2
        subst hk2
        dsimp only
        simp only [List.length_drop] at hrest
        simp only [List.length_take, List.length_drop]
        omega
  · intro h
    simp only [RsaPublicKey.new, PublicOffsetGroup.body_len, usizeAdd,
      List.length_append]
    rw [Nat.mod_eq_of_lt h]
  · intro h
    simp only [RsaPrivateKey.new, PrivateOffsetGroup.body_len, usizeAdd,
      List.length_append, Nat.mod_add_mod]
    rw [Nat.mod_eq_of_lt (by omega)]

lemma from_bytes_to_bytes_public (k : RsaPublicKey)
    (h1 : k.offset.n < USIZE_MOD) (h2 : k.offset.e < USIZE_MOD)
    (h3 : k.data.length = k.offset.body_len)
    (h4 : k.offset_starts = k.offset.starts) :
    RsaPublicKey.from_bytes k.to_bytes = .ok k := by
  obtain ⟨data, starts, vn, ve⟩ := k
  dsimp only at h1 h2 h3 h4
  subst h4
  dsimp only [RsaPublicKey.to_bytes]
  have hlen : (encodePublicOffsets ⟨vn, ve⟩ ++ data).length =
      pubHeaderSize + data.length := by
    rw [List.length_append, encodePublicOffsets_length]
  rw [RsaPublicKey.from_bytes, if_neg (by omega),
    List.take_left' (encodePublicOffsets_length _),
    List.drop_left' (encodePublicOffsets_length _),
    decode_encode_public]
  dsimp only
  rw [Nat.mod_eq_of_lt h1, Nat.mod_eq_of_lt h2]
  simp only [if_neg (show ¬ data.length <
    PublicOffsetGroup.body_len ⟨vn, ve⟩ by omega)]

lemma from_bytes_to_bytes_private (k : RsaPrivateKey)
    (h1 : k.offset.n < USIZE_MOD) (h2 : k.offset.e < USIZE_MOD)
    (h3 : k.offset.d < USIZE_MOD) (h4 : k.offset.p < USIZE_MOD)
    (h5 : k.offset.q < USIZE_MOD) (h6 : k.offset.dmp1 < USIZE_MOD)
    (h7 : k.offset.dmq1 < USIZE_MOD) (h8 : k.offset.iqmp < USIZE_MOD)
    (h9 : k.data.length = k.offset.body_len)
    (h10 : k.offset_starts = k.offset.starts) :
    RsaPrivateKey.from_bytes k.to_bytes = .ok k := by
  obtain ⟨data, starts, vn, ve, vd, vp, vq, v1, v2, vi⟩ := k
  dsimp only at h1 h2 h3 h4 h5 h6 h7 h8 h9 h10
  subst h10
  dsimp only [RsaPrivateKey.to_bytes]
  have hlen : (encodePrivateOffsets ⟨vn, ve, vd, vp, vq, v1, v2, vi⟩ ++ data).length =
      privHeaderSize + data.length := by
    rw [List.length_append, encodePrivateOffsets_length]
  rw [RsaPrivateKey.from_bytes, if_neg (by omega),
    List.take_left' (encodePrivateOffsets_length _),
    List.drop_left' (encodePrivateOffsets_length _),
    decode_encode_private]
  dsimp only
  rw [Nat.mod_eq_of_lt h1, Nat.mod_eq_of_lt h2, Nat.mod_eq_of_lt h3,
    Nat.mod_eq_of_lt h4, Nat.mod_eq_of_lt h5, Nat.mod_eq_of_lt h6,
    Nat.mod_eq_of_lt h7, Nat.mod_eq_of_lt h8]
  simp only [if_neg (show ¬ data.length <
    PrivateOffsetGroup.body_len ⟨vn, ve, vd, vp, vq, v1, v2, vi⟩ by omega)]

/-- C2: for every valid container (its buffer length matching `body_len`,
its start table the one derived from its offsets, each offset field a
`usize` value — zero-length components included), decoding its encoding
yields an equal container byte for byte, and every component accessor of
the decoded container returns exactly the corresponding component of the
original. -/
theorem codec_roundtrip (k : RsaPublicKey) (c : RsaPrivateKey)
    (hk1 : k.offset.n < USIZE_MOD) (hk2 : k.offset.e < USIZE_MOD)
    (hk3 : k.data.length = k.offset.body_len)
    (hk4 : k.offset_starts = k.offset.starts)
    (hc1 : c.offset.n < USIZE_MOD) (hc2 : c.offset.e < USIZE_MOD)
    (hc3 : c.offset.d < USIZE_MOD) (hc4 : c.offset.p < USIZE_MOD)
    (hc5 : c.offset.q < USIZE_MOD) (hc6 : c.offset.dmp1 < USIZE_MOD)
    (hc7 : c.offset.dmq1 < USIZE_MOD) (hc8 : c.offset.iqmp < USIZE_MOD)
    (hc9 : c.data.length = c.offset.body_len)
    (hc10 : c.offset_starts = c.offset.starts) :
    RsaPublicKey.from_bytes k.to_bytes = .ok k ∧
    RsaPrivateKey.from_bytes c.to_bytes = .ok c ∧
    (∀ k2, RsaPublicKey.from_bytes k.to_bytes = .ok k2 →
      k2.n = k.n ∧ k2.e = k.e) ∧
    (∀ c2, RsaPrivateKey.from_bytes c.to_bytes = .ok c2 →
      c2.n = c.n ∧ c2.e = c.e ∧ c2.d = c.d ∧ c2.p = c.p ∧ c2.q = c.q ∧
      c2.dmp1 = c.dmp1 ∧ c2.dmq1 = c.dmq1 ∧ c2.iqmp = c.iqmp) := by
  have hpub := from_bytes_to_bytes_public k hk1 hk2 hk3 hk4
  have hpriv := from_bytes_to_bytes_private c hc1 hc2 hc3 hc4 hc5 hc6 hc7 hc8 hc9 hc10
  refine ⟨hpub, hpriv, ?_, ?_⟩
  · intro k2 hk2'
    rw [hpub] at hk2'
    injection hk2' with hk2''
    subst hk2''
    exact ⟨rfl, rfl⟩
  · intro c2 hc2'
    rw [hpriv] at hc2'
    injection hc2' with hc2''
    subst hc2''
    exact ⟨rfl, rfl, rfl, rfl, rfl, rfl, rfl, rfl⟩

/-- C2 witness: a public container with components `[1,2]`, `[3]` and a
private container with component `n = [9]` and all other components
zero-length round-trip exactly. -/
theorem codec_roundtrip_witness :
    RsaPublicKey.from_bytes (RsaPublicKey.new [1, 2] [3]).to_bytes =
      .ok (RsaPublicKey.new [1, 2] [3]) ∧
    RsaPrivateKey.from_bytes (RsaPrivateKey.new [9] [] [] [] [] [] [] []).to_bytes =
      .ok (RsaPrivateKey.new [9] [] [] [] [] [] [] []) := by
  have h := codec_roundtrip (RsaPublicKey.new [1, 2] [3])
    (RsaPrivateKey.new [9] [] [] [] [] [] [] [])
    (by decide) (by decide) (by decide) rfl
    (by decide) (by decide) (by decide) (by decide) (by decide) (by decide)
    (by decide) (by decide) (by decide) rfl
  exact ⟨h.1, h.2.1⟩

lemma encryptBlock_ok (key_size : Nat) (chunk : List Nat)
    (h : chunk.length + RSA_PADDING_NEEDS ≤ key_size) :
    encryptBlock key_size chunk =
      .ok ([0, 2] ++ List.replicate (key_size - chunk.length - 3) 1 ++ [0] ++ chunk) := by
  rw [encryptBlock, if_pos h]

lemma encryptBlock_ok_length (key_size : Nat) (chunk : List Nat)
    (h : chunk.length + RSA_PADDING_NEEDS ≤ key_size) :
    ([0, 2] ++ List.replicate (key_size - chunk.length - 3) 1 ++ [0] ++ chunk).length =
      key_size := by
  simp only [List.length_append, List.length_replicate, List.length_cons,
    List.length_nil]
  have hpad : RSA_PADDING_NEEDS = 11 := rfl
  rw [hpad] at h
  omega

lemma encryptLoop_spec_aux (key_size max_size : Nat)
    (hM : 0 < max_size) (hK : max_size + RSA_PADDING_NEEDS ≤ key_size) :
    ∀ (N : Nat) (stream : List Nat), stream.length ≤ N →
      ∃ blocks done,
        encryptLoop key_size max_size stream = .ok (blocks, done) ∧
        done = stream.length ∧
        blocks.length = (stream.length + max_size - 1) / max_size ∧
        ∀ b ∈ blocks, b.length = key_size := by
  intro N
  induction N with
  | zero =>
    intro stream hs
    have hnil : stream = [] := List.length_eq_zero.mp (Nat.le_zero.mp hs)
    subst hnil
    refine ⟨[], 0, ?_, rfl, ?_, by simp⟩
    · rw [encryptLoop, dif_pos (Or.inr rfl)]
    · simp only [List.length_nil, Nat.zero_add, List.length_nil]
      exact (Nat.div_eq_of_lt (by omega)).symm
  | succ N ih =>
    intro stream hs
    rcases eq_or_ne stream [] with rfl | hnil
    · refine ⟨[], 0, ?_, rfl, ?_, by simp⟩
      · rw [encryptLoop, dif_pos (Or.inr rfl)]
      · simp only [List.length_nil, Nat.zero_add, List.length_nil]
        exact (Nat.div_eq_of_lt (by omega)).symm
    · have hpos : 0 < stream.length := List.length_pos.mpr hnil
      have hchunk : (stream.take max_size).length + RSA_PADDING_NEEDS ≤ key_size := by
        rw [List.length_take]
        omega
      obtain ⟨blocks, done, heq, hdone, hcount, hblen⟩ :=
        ih (stream.drop max_size) (by rw [List.length_drop]; omega)
      refine ⟨([0, 2] ++ List.replicate (key_size - (stream.take max_size).length - 3) 1 ++
          [0] ++ stream.take max_size) :: blocks,
        (stream.take max_size).length + done, ?_, ?_, ?_, ?_⟩
      · rw [encryptLoop, dif_neg (by push_neg; exact ⟨by omega, hnil⟩)]
        simp only [encryptBlock_ok _ _ hchunk, heq]
      · rw [hdone, List.length_take, List.length_drop]
        omega
      · rw [List.length_cons, hcount, List.length_drop]
        rcases le_or_lt stream.length max_size with hle | hlt
        · have h0 : stream.length - max_size = 0 := by omega
          rw [h0]
          rw [Nat.div_eq_of_lt (by omega)]
          exact (Nat.div_eq_of_lt_le (by omega) (by omega)).symm
        · have h1 : stream.length - max_size + max_size - 1 =
              stream.length - 1 + max_size - max_size := by omega
          have h2 : stream.length + max_size - 1 = (stream.length - 1) + max_size := by
            omega
          have h3 : stream.length - max_size + max_size - 1 =
              (stream.length - 1 - max_size) + max_size := by omega
          rw [h3, Nat.add_div_right _ hM, h2, Nat.add_div_right _ hM]
          have h4 : stream.length - 1 - max_size + max_size = stream.length - 1 := by
            omega
          conv_rhs => rw [← h4, Nat.add_div_right _ hM]
      · intro b hb
        rcases List.mem_cons.mp hb with rfl | hb2
        · exact encryptBlock_ok_length _ _ hchunk
        · exact hblen b hb2

/-- C6: for every source stream of `N` total bytes (a list-backed reader
that fills the read buffer whenever bytes remain), `encrypt_sync` succeeds,
writes `ceil(N / max_plain_chunk)` output blocks of exactly `key_size`
bytes each, and returns `N` — the input bytes consumed, not the output
bytes written. -/
theorem encrypt_sync_spec (key_size : Nat) (stream : List Nat)
    (h : RSA_PADDING_NEEDS < key_size) :
    ∃ blocks done,
      encrypt_sync key_size stream = .ok (blocks, done) ∧
      done = stream.length ∧
      blocks.length = (stream.length + (key_size - RSA_PADDING_NEEDS) - 1) /
        (key_size - RSA_PADDING_NEEDS) ∧
      ∀ b ∈ blocks, b.length = key_size := by
  have hpad : RSA_PADDING_NEEDS = 11 := rfl
  exact encryptLoop_spec_aux key_size (key_size - RSA_PADDING_NEEDS)
    (by omega) (by omega) stream.length stream le_rfl

/-- C6 witness: a 7-byte stream with `key_size` 16 (`max_plain_chunk` 5)
yields 2 blocks of 16 bytes and returns 7. -/
theorem encrypt_sync_spec_witness :
    ∃ blocks done,
      encrypt_sync 16 (List.replicate 7 1) = .ok (blocks, done) ∧
      done = 7 ∧ blocks.length = 2 ∧ ∀ b ∈ blocks, b.length = 16 := by
  obtain ⟨blocks, done, h1, h2, h3, h4⟩ :=
    encrypt_sync_spec 16 (List.replicate 7 1) (by norm_num [RSA_PADDING_NEEDS])
  refine ⟨blocks, done, h1, ?_, ?_, h4⟩
  · rw [h2, List.length_replicate]
  · rw [h3]
    norm_num [RSA_PADDING_NEEDS]

lemma decrypt_sync_fails_on_nonempty (key_size : Nat) (ct : List Nat)
    (hks : RSA_PADDING_NEEDS < key_size) (hct : ct ≠ []) :
    decrypt_sync key_size ct = .error .Decrypt := by
  have hpad : RSA_PADDING_NEEDS = 11 := rfl
  rw [decrypt_sync, decryptLoop, dif_neg (by push_neg; exact ⟨by omega, hct⟩)]
  have hlen : (ct.take (key_size - RSA_PADDING_NEEDS)).length ≠ key_size := by
    rw [List.length_take]
    have := List.length_pos.mpr hct
    omega
  simp only [show decryptBlock key_size (ct.take (key_size - RSA_PADDING_NEEDS)) =
      .error ⟨4⟩ from by rw [decryptBlock, if_neg hlen]]

/-- C3: the round trip the claim asserts fails in the code: `decrypt_sync`
allocates its read buffer at `key_size - RSA_PADDING_NEEDS` bytes, so no
read can ever return a whole `key_size` block, and the first partial block
fails block decryption — for every nonempty plaintext, decrypting the
stream-encrypt output yields `Error::Decrypt` instead of the plaintext. -/
theorem stream_decrypt_cannot_invert (key_size : Nat) (pt : List Nat)
    (hks : RSA_PADDING_NEEDS < key_size) (hpt : pt ≠ []) :
    ∀ blocks done, encrypt_sync key_size pt = .ok (blocks, done) →
      decrypt_sync key_size blocks.flatten = .error .Decrypt := by
  intro blocks done heq
  obtain ⟨blocks', done', h1, h2, h3, h4⟩ := encrypt_sync_spec key_size pt hks
  rw [heq] at h1
  injection h1 with h1'
  injection h1' with hb hd
  subst hb
  have hpos : 0 < pt.length := List.length_pos.mpr hpt
  have hM : 0 < key_size - RSA_PADDING_NEEDS := by
    have hpad : RSA_PADDING_NEEDS = 11 := rfl
    omega
  have hbne : blocks ≠ [] := by
    intro hb0
    rw [hb0] at h3
    simp only [List.length_nil] at h3
    have : (pt.length + (key_size - RSA_PADDING_NEEDS) - 1) /
        (key_size - RSA_PADDING_NEEDS) ≠ 0 := by
      intro hz
      have := (Nat.div_eq_zero_iff (by omega)).mp hz
      omega
    exact this h3.symm
  have hjoin : blocks.flatten ≠ [] := by
    obtain ⟨b0, rest, rfl⟩ := List.exists_cons_of_ne_nil hbne
    have hb0 : b0.length = key_size := h4 b0 (List.mem_cons_self b0 rest)
    intro hj
    rw [List.flatten_cons] at hj
    have := List.append_eq_nil.mp hj
    have hlen0 := congrArg List.length this.1
    simp only [List.length_nil] at hlen0
    omega
  exact decrypt_sync_fails_on_nonempty key_size blocks.flatten hks hjoin

/-- C3 witness: with `key_size` 16, the plaintext `[5]` encrypts to one
16-byte block; streaming decryption of that very block fails with
`Error::Decrypt`. -/
theorem stream_decrypt_cannot_invert_witness :
    decrypt_sync 16 ([[0, 2] ++ List.replicate 12 1 ++ [0] ++ [5]] : List (List Nat)).flatten =
      .error .Decrypt := by
  apply stream_decrypt_cannot_invert 16 [5] (by norm_num [RSA_PADDING_NEEDS])
    (by simp) [[0, 2] ++ List.replicate 12 1 ++ [0] ++ [5]] 1
  rw [encrypt_sync, encryptLoop, dif_neg (by norm_num [RSA_PADDING_NEEDS])]
  norm_num [RSA_PADDING_NEEDS, encryptBlock]
  rw [encryptLoop, dif_pos (Or.inr rfl)]

end Cryptohelpers
